import Mathlib

/-!
Verification of the docbaseview server (server.go) against its
natural-language specification.

The embedding below models, at the level of `List Char`:
  * `strings.ReplaceAll`            as `rAll` (leftmost, non-overlapping scan);
  * `regexp.ReplaceAllString`       as `scanF` driven by a per-pattern matcher
    (`tryMd`, `tryFile`, `tryIcon`, `tryImg`), each transcribing one of the
    four compiled patterns of server.go;
  * `fixLinks` and `fixEmoji`       as the composition of those passes, in the
    source order; `fixEmoji` takes the Go map iteration order as an explicit
    parameter, since Go does not fix it;
  * the startup directory scans     as `buildIndex` over directory entries
    (`entry.Name()[strings.LastIndex(entry.Name(), "_")+1:]` is `nameKey`);
  * the HTTP mux, `catchAll` and the content handlers as total functions from
    a `Config` (immutable startup state plus the external collaborators:
    filesystem, markdown engine, content-type sniffer) and a `Request` to a
    `Response`.

Go strings are byte strings, but every pattern involved is ASCII and the
inputs are UTF-8, so the rune-level (`Char`-level) model is faithful.
-/

/-! ### Literal substring replacement: `strings.ReplaceAll` -/

/-- Fuel-driven scan of `strings.ReplaceAll pat repl`: at each position, if
`pat` matches, emit `repl` and continue after the match, else emit one char.
The fuel `s.length` is always sufficient because every step consumes at least
one character of a non-empty pattern. -/
def rAllF (pat repl : List Char) : Nat → List Char → List Char
  | 0, s => s
  | _ + 1, [] => []
  | n + 1, c :: cs =>
    if pat.isPrefixOf (c :: cs) then
      repl ++ rAllF pat repl n (List.drop (pat.length - 1) cs)
    else
      c :: rAllF pat repl n cs

/-- `strings.ReplaceAll s pat repl` for a non-empty `pat`. -/
def rAll (pat repl s : List Char) : List Char := rAllF pat repl s.length s

/-! ### Regex replacement driver: `regexp.ReplaceAllString` -/

/-- Fuel-driven leftmost scan for a regex pass: the matcher `m`, at each
position, either matches a non-empty prefix, returning the expanded
replacement text and the remainder after the match, or fails. -/
def scanF (m : List Char → Option (List Char × List Char)) : Nat → List Char → List Char
  | 0, s => s
  | _ + 1, [] => []
  | n + 1, c :: cs =>
    match m (c :: cs) with
    | some (r, rest) => r ++ scanF m n rest
    | none => c :: scanF m n cs

/-- Match a literal character-list at the head, returning the remainder. -/
def dropPfx : List Char → List Char → Option (List Char)
  | [], s => some s
  | _ :: _, [] => none
  | p :: ps, c :: cs => if p = c then dropPfx ps cs else none

/-! ### The four compiled patterns of server.go -/

/-- Expansion of the template `🔗 <a href="$1.md">$1.md</a>` at capture `d`. -/
def mdRepl (d : List Char) : List Char :=
  "🔗 <a href=\"".toList ++ d ++ ".md\">".toList ++ d ++ ".md</a>".toList

/-- Matcher for `mdLinkPattern`, the regex `#` `{` `[0-9]+` `}` with the
digits captured. -/
def tryMd : List Char → Option (List Char × List Char)
  | '#' :: '{' :: rest =>
    let d := rest.takeWhile Char.isDigit
    if d = [] then none
    else
      match rest.dropWhile Char.isDigit with
      | '}' :: tail => some (mdRepl d, tail)
      | _ => none
  | _ => none

/-- `mdLinkPattern.ReplaceAllString s "🔗 <a href=\"$1.md\">$1.md</a>"`. -/
def mdStep (s : List Char) : List Char := scanF tryMd s.length s

def filePfx : List Char := "https://docbase.io/file_attachments/".toList

/-- The character class `[0-9a-zA-Z.]` of `fileLinkPattern`. -/
def fileIdChar (c : Char) : Bool := c.isAlphanum || c = '.'

/-- Matcher for `fileLinkPattern`: the literal attachment URL host and path
followed by a captured non-empty run of `[0-9a-zA-Z.]`. -/
def tryFile (s : List Char) : Option (List Char × List Char) :=
  match dropPfx filePfx s with
  | none => none
  | some rest =>
    let d := rest.takeWhile fileIdChar
    if d = [] then none else some (d, rest.dropWhile fileIdChar)

/-- `fileLinkPattern.ReplaceAllString s "$1"`. -/
def fileStep (s : List Char) : List Char := scanF tryFile s.length s

/-- The fixed replacement `📄️` for file-icon image markup. -/
def iconRepl : List Char := "📄️".toList

/-- Matcher for `fileIconPattern`: markdown image syntax
`![` `[a-z]+` `](/images/file_icons/` `[a-z]+` `.svg)`. -/
def tryIcon : List Char → Option (List Char × List Char)
  | '!' :: '[' :: rest =>
    let a := rest.takeWhile Char.isLower
    if a = [] then none
    else
      match rest.dropWhile Char.isLower with
      | ']' :: '(' :: rest2 =>
        match dropPfx "/images/file_icons/".toList rest2 with
        | none => none
        | some rest3 =>
          let b := rest3.takeWhile Char.isLower
          if b = [] then none
          else
            match rest3.dropWhile Char.isLower with
            | '.' :: 's' :: 'v' :: 'g' :: ')' :: tail => some (iconRepl, tail)
            | _ => none
      | _ => none
  | _ => none

/-- `fileIconPattern.ReplaceAllString s "📄️"`. -/
def iconStep (s : List Char) : List Char := scanF tryIcon s.length s

def imgPfx : List Char := "https://image.docbase.io/uploads/".toList

/-- The character class `[0-9a-zA-Z-.]` of `imgLinkPattern`. -/
def imgIdChar (c : Char) : Bool := c.isAlphanum || c = '-' || c = '.'

/-- The negated class `[^)]`. -/
def notRParen (c : Char) : Bool := c != ')'

/-- Matcher for `imgLinkPattern`: the literal image URL host and path, a
captured non-empty greedy run of `[0-9a-zA-Z-.]`, then a greedy run of
`[^)]*` (everything up to a closing parenthesis, or the end of input). -/
def tryImg (s : List Char) : Option (List Char × List Char) :=
  match dropPfx imgPfx s with
  | none => none
  | some rest =>
    let d := rest.takeWhile imgIdChar
    if d = [] then none
    else some (d, (rest.dropWhile imgIdChar).dropWhile notRParen)

/-- `imgLinkPattern.ReplaceAllString s "$1"`. -/
def imgStep (s : List Char) : List Char := scanF tryImg s.length s

/-! ### The literal substitutions and the full `fixLinks` pipeline -/

def ckBox : List Char := "[ ]".toList
def ckBoxRepl : List Char := "<input type=\"checkbox\" disabled></input>".toList
def ckChecked : List Char := "[x]".toList
def ckCheckedRepl : List Char := "<input type=\"checkbox\" disabled checked></input>".toList
def guidancePat : List Char := "/guidance/".toList
def guidanceRepl : List Char := "https://help.docbase.io/guidance/".toList

/-- The four regex passes of `fixLinks`, in source order (steps 1-4). -/
def urlPasses (s : List Char) : List Char := imgStep (iconStep (fileStep (mdStep s)))

/-- `fixLinks` from server.go: the four regex passes followed by the three
literal `strings.ReplaceAll` substitutions, in source order. -/
def fixLinks (s : List Char) : List Char :=
  rAll guidancePat guidanceRepl
    (rAll ckChecked ckCheckedRepl
      (rAll ckBox ckBoxRepl (urlPasses s)))

/-! ### `emojiDict` and `fixEmoji` -/

/-- The fixed emoji dictionary of server.go, as an association list (the Go
map has no intrinsic order; iteration order is a parameter of `fixEmoji`). -/
def emojiDict : List (List Char × List Char) := [
  ("+1".toList, "👍".toList), ("-1".toList, "👎".toList), ("bulb".toList, "💡".toList),
  ("computer".toList, "💻".toList), ("inbox_tray".toList, "📥".toList), ("link".toList, "🔗".toList),
  ("lock".toList, "🔒".toList), ("mag".toList, "🔍".toList), ("memo".toList, "📝".toList),
  ("moneybag".toList, "💰".toList), ("movie_camera".toList, "🎥".toList), ("poop".toList, "💩".toList),
  ("pray".toList, "🙏".toList), ("shit".toList, "💩".toList), ("sparkle".toList, "✨".toList),
  ("sparkles".toList, "✨".toList), ("speech_balloon".toList, "💬".toList), ("unlock".toList, "🔓".toList)]

/-- The search string `":" + k + ":"` used by `fixEmoji`. -/
def emojiPat (k : List Char) : List Char := ':' :: (k ++ [':'])

/-- `fixEmoji` from server.go: one `strings.ReplaceAll` per dictionary entry,
in the (unspecified) iteration order `order` of the Go map. -/
def fixEmoji (order : List (List Char × List Char)) (s : List Char) : List Char :=
  order.foldl (fun t kv => rAll (emojiPat kv.1) kv.2 t) s

/-! ### Name Index (the startup scans of the image and attachment dirs) -/

structure DirEntry where
  name : List Char
  isDir : Bool
deriving DecidableEq

/-- Position of the last underscore, as in `strings.LastIndex(name, "_")`. -/
def lastUnderscore : List Char → Option Nat
  | [] => none
  | c :: cs =>
    match lastUnderscore cs with
    | some i => some (i + 1)
    | none => if c = '_' then some 0 else none

/-- `name[strings.LastIndex(name, "_")+1:]`: the suffix after the last
underscore; the whole name when there is none (LastIndex yields -1). -/
def nameKey (n : List Char) : List Char :=
  match lastUnderscore n with
  | some i => n.drop (i + 1)
  | none => n

/-- One iteration of the scan loop: skip directories, otherwise assign
`m[nameKey name] = name` (later entries overwrite earlier ones). -/
def indexInsert (m : List Char → Option (List Char)) (e : DirEntry) :
    List Char → Option (List Char) :=
  if e.isDir then m
  else fun k => if k = nameKey e.name then some e.name else m k

/-- The Name Index built by the startup scan over a directory listing. -/
def buildIndex (entries : List DirEntry) : List Char → Option (List Char) :=
  entries.foldl indexInsert (fun _ => none)

/-! ### Request handling -/

structure Document where
  fileName : List Char
  title : List Char
deriving DecidableEq

/-- What happens when `handleMarkdown` opens a file that `os.Stat` found:
either `os.Open` fails, or the `bufio.Scanner` yields a title line, the
remaining content, possibly a scan error, and `f.Close()` possibly fails. -/
inductive OpenOutcome where
  | openErr (msg : List Char)
  | scanned (title : List Char) (content : List Char)
      (scanErr : Option (List Char)) (closeErr : Option (List Char))

/-- `headAndContent` from server.go. Note the deferred
`func() { err = f.Close() }()` over the named return value: it runs after
`err = scanner.Err()` and unconditionally overwrites it, so a scan error is
reported only if `f.Close()` also fails; with a clean close the partially
scanned title and content are returned with a nil error. -/
def headAndContent : OpenOutcome → Except (List Char) (List Char × List Char)
  | .openErr m => .error m
  | .scanned _ _ _ (some m) => .error m
  | .scanned t c _ none => .ok (t, c)

inductive Body where
  | empty
  | errorText (msg : List Char)
  | notFoundPage
  | indexPage (docs : List Document)
  | docPage (title : List Char) (html : List Char)
  | raw (content : List Char) (contentType : List Char)
  | css
deriving DecidableEq

structure Response where
  status : Nat
  challenge : Bool
  body : Body
deriving DecidableEq

/-- An incoming request: method, URL path, and the parsed outcome of
`r.BasicAuth()` (`none` when the header is absent or malformed). -/
structure Request where
  method : List Char
  path : List Char
  auth : Option (List Char × List Char)

/-- The immutable process-wide state built at startup, together with the
external collaborators (filesystem contents, markdown engine `toHTML`,
`http.DetectContentType` as `detect`). -/
structure Config where
  basicUser : List Char
  basicPassword : List Char
  mdDir : List Char
  imgDir : List Char
  fileDir : List Char
  mdEntries : List Document
  mdFs : List Char → Option OpenOutcome
  imgIndex : List Char → Option (List Char)
  fileIndex : List Char → Option (List Char)
  imgRead : List Char → Except (List Char) (List Char)
  fileRead : List Char → Except (List Char) (List Char)
  emojiOrder : List (List Char × List Char)
  toHTML : List Char → List Char
  detect : List Char → List Char

def pathJoin (dir name : List Char) : List Char := dir ++ '/' :: name

def handleIndex (cfg : Config) : Response := ⟨200, false, .indexPage cfg.mdEntries⟩

/-- `handleMarkdown`: `os.Stat` (`mdFs _ = none` models a stat failure), then
`headAndContent`, then render the rewritten body into the document page. -/
def handleMarkdown (cfg : Config) (fileName : List Char) : Response :=
  match cfg.mdFs (pathJoin cfg.mdDir fileName) with
  | none => ⟨404, false, .notFoundPage⟩
  | some oc =>
    match headAndContent oc with
    | .error e => ⟨500, false, .errorText e⟩
    | .ok (t, c) =>
      ⟨200, false, .docPage t (cfg.toHTML (fixEmoji cfg.emojiOrder (fixLinks c)))⟩

/-- `handleImage`: Name Index lookup, then `os.ReadFile`. -/
def handleImage (cfg : Config) (fileName : List Char) : Response :=
  match cfg.imgIndex fileName with
  | none => ⟨404, false, .notFoundPage⟩
  | some actual =>
    match cfg.imgRead (pathJoin cfg.imgDir actual) with
    | .error e => ⟨500, false, .errorText e⟩
    | .ok content => ⟨200, false, .raw content (cfg.detect content)⟩

/-- `handleFile`: Name Index lookup, then `os.ReadFile`. -/
def handleFile (cfg : Config) (fileName : List Char) : Response :=
  match cfg.fileIndex fileName with
  | none => ⟨404, false, .notFoundPage⟩
  | some actual =>
    match cfg.fileRead (pathJoin cfg.fileDir actual) with
    | .error e => ⟨500, false, .errorText e⟩
    | .ok content => ⟨200, false, .raw content (cfg.detect content)⟩

/-- The credential comparison of `catchAll`:
`!ok || id != basicUser || secret != basicPassword` negated. -/
def authOk (cfg : Config) (auth : Option (List Char × List Char)) : Bool :=
  match auth with
  | none => false
  | some (id, secret) => id == cfg.basicUser && secret == cfg.basicPassword

/-- `strings.TrimPrefix(r.URL.Path, "/")`. -/
def trimSlash : List Char → List Char
  | '/' :: rest => rest
  | s => s

def lower (s : List Char) : List Char := s.map Char.toLower

def hasSfx (sfx s : List Char) : Bool := sfx.isSuffixOf s

/-- `catchAll` from server.go: method check, optional basic-auth check, then
dispatch on the (lower-cased) path suffix. -/
def catchAll (cfg : Config) (req : Request) : Response :=
  if req.method ≠ "GET".toList then ⟨405, false, .errorText "Method Not Allowed".toList⟩
  else if cfg.basicUser ≠ [] ∧ authOk cfg req.auth = false then
    ⟨401, true, .errorText "Unauthorized".toList⟩
  else
    let fileName := trimSlash req.path
    if fileName = [] then handleIndex cfg
    else if hasSfx ".md".toList (lower fileName) then handleMarkdown cfg fileName
    else if hasSfx ".jpg".toList (lower fileName) ∨ hasSfx ".jpeg".toList (lower fileName) ∨
        hasSfx ".png".toList (lower fileName) ∨ hasSfx ".gif".toList (lower fileName) then
      handleImage cfg fileName
    else handleFile cfg fileName

/-- The mux built in `main`: `/favicon.ico` and `/doc.css` are registered as
exact-path handlers that run before (and without) `catchAll`, every other
path falls through to `catchAll`. -/
def serve (cfg : Config) (req : Request) : Response :=
  if req.path = "/favicon.ico".toList then ⟨404, false, .notFoundPage⟩
  else if req.path = "/doc.css".toList then ⟨200, false, .css⟩
  else catchAll cfg req

/-! ### Side conditions used by the replacement lemmas -/

/-- No proper non-empty boundary split of `pat` aligns with `x`: no non-empty
proper prefix of `pat` is a suffix of `x`, and no non-empty proper suffix of
`pat` is a prefix of `x`. -/
def noBoundaryOverlap (pat x : List Char) : Prop :=
  ∀ i, i < pat.length → 0 < i → ¬ (pat.take i <:+ x) ∧ ¬ (pat.drop i <+: x)

instance (pat x : List Char) : Decidable (noBoundaryOverlap pat x) := by
  unfold noBoundaryOverlap; infer_instance

/-! ### Concrete configurations used by the request-level claims -/

/-- A configuration with the shared credential enabled and an otherwise
empty filesystem. -/
def cfgAuth : Config :=
  ⟨"u".toList, "p".toList, "md".toList, "img".toList, "file".toList, [],
    fun _ => none, fun _ => none, fun _ => none,
    fun _ => Except.error "e".toList, fun _ => Except.error "e".toList,
    emojiDict, id, fun _ => "text/plain".toList⟩

/-- An unauthenticated GET request for the stylesheet. -/
def reqCss : Request := ⟨"GET".toList, "/doc.css".toList, none⟩

/-- A markdown file whose scan failed mid-read (for example a line longer
than `bufio.MaxScanTokenSize`) but whose `Close` succeeded. -/
def mdOutcomeScanErr : OpenOutcome :=
  .scanned "T".toList "partial line\n".toList
    (some "bufio.Scanner: token too long".toList) none

/-- A configuration (no auth) whose markdown dir contains `a.md` with the
failing scan outcome above. -/
def cfgScanErr : Config :=
  ⟨[], [], "md".toList, "img".toList, "file".toList, [],
    (fun p => if p = "md/a.md".toList then some mdOutcomeScanErr else none),
    fun _ => none, fun _ => none,
    fun _ => Except.error "e".toList, fun _ => Except.error "e".toList,
    emojiDict, id, fun _ => "text/plain".toList⟩

/-- A GET request for that markdown document. -/
def reqScanErr : Request := ⟨"GET".toList, "/a.md".toList, none⟩

/-! ### Affix helper lemmas -/

lemma pfx_inf {p s : List Char} (h : p <+: s) : p <:+: s := by
  obtain ⟨t, rfl⟩ := h; exact ⟨[], t, rfl⟩

lemma sfx_inf {p s : List Char} (h : p <:+ s) : p <:+: s := by
  obtain ⟨t, rfl⟩ := h; exact ⟨t, [], by simp⟩

lemma inf_append_right {q b : List Char} (a : List Char) (h : q <:+: b) : q <:+: a ++ b := by
  obtain ⟨u, v, rfl⟩ := h; exact ⟨a ++ u, v, by simp⟩

lemma inf_append_left {q a : List Char} (b : List Char) (h : q <:+: a) : q <:+: a ++ b := by
  obtain ⟨u, v, rfl⟩ := h; exact ⟨u, v ++ b, by simp⟩

lemma inf_cons {q l : List Char} (c : Char) (h : q <:+: l) : q <:+: c :: l :=
  inf_append_right [c] h

lemma pfx_cons {p l : List Char} (c : Char) (h : p <+: l) : c :: p <+: c :: l := by
  obtain ⟨t, rfl⟩ := h; exact ⟨t, rfl⟩

lemma inf_cons_cases {q l : List Char} {c : Char} (h : q <:+: c :: l) :
    q <+: c :: l ∨ q <:+: l := by
  obtain ⟨u, v, huv⟩ := h
  cases u with
  | nil => exact Or.inl ⟨v, by simpa using huv⟩
  | cons x u' =>
    simp only [List.cons_append] at huv
    injection huv with h1 h2
    exact Or.inr ⟨u', v, h2⟩

lemma pfx_of_pfx_le {p₁ p₂ l : List Char} (h₁ : p₁ <+: l) (h₂ : p₂ <+: l)
    (h : p₁.length ≤ p₂.length) : p₁ <+: p₂ :=
  List.prefix_of_prefix_length_le h₁ h₂ h

/-- Decomposition of an infix occurrence over an append: it lies in the left
part, in the right part, or spans the boundary. -/
lemma inf_append_cases {q a b : List Char} (h : q <:+: a ++ b) :
    q <:+: a ∨ q <:+: b ∨
      ∃ x y, q = x ++ y ∧ x ≠ [] ∧ y ≠ [] ∧ x <:+ a ∧ y <+: b := by
  obtain ⟨u, v, huv⟩ := h
  rw [List.append_assoc] at huv
  rcases List.append_eq_append_iff.mp huv with ⟨w, hw1, hw2⟩ | ⟨w, hw1, hw2⟩
  · rcases List.append_eq_append_iff.mp hw2 with ⟨z, hz1, hz2⟩ | ⟨z, hz1, hz2⟩
    · exact Or.inl ⟨u, z, by rw [hw1, hz1, List.append_assoc]⟩
    · rcases eq_or_ne w [] with rfl | hw
      · exact Or.inr (Or.inl ⟨[], v, by simp [hz1, ← hz2]⟩)
      · rcases eq_or_ne z [] with rfl | hz
        · exact Or.inl ⟨u, [], by simp [hw1, hz1]⟩
        · exact Or.inr (Or.inr ⟨w, z, hz1, hw, hz, ⟨u, hw1.symm⟩, ⟨v, hz2.symm⟩⟩)
  · exact Or.inr (Or.inl ⟨w, v, by rw [List.append_assoc]; exact hw2.symm⟩)

/-! ### Equation and fuel lemmas for `rAll` -/

lemma rAllF_nil (pat repl : List Char) (n : Nat) : rAllF pat repl n [] = [] := by
  cases n <;> rfl

lemma rAllF_fuel (pat repl : List Char) :
    ∀ (n m : Nat) (s : List Char), s.length ≤ n → s.length ≤ m →
      rAllF pat repl n s = rAllF pat repl m s := by
  intro n
  induction n with
  | zero =>
    intro m s hn _
    rw [List.eq_nil_of_length_eq_zero (Nat.le_zero.mp hn), rAllF_nil, rAllF_nil]
  | succ n ih =>
    intro m s hn hm
    cases s with
    | nil => rw [rAllF_nil, rAllF_nil]
    | cons c cs =>
      cases m with
      | zero => simp at hm
      | succ m =>
        have hcs : cs.length ≤ n := Nat.le_of_succ_le_succ hn
        have hcs' : cs.length ≤ m := Nat.le_of_succ_le_succ hm
        by_cases h : pat.isPrefixOf (c :: cs)
        · simp only [rAllF, if_pos h]
          congr 1
          exact ih m _ (Nat.le_trans (by simp) hcs) (Nat.le_trans (by simp) hcs')
        · simp only [rAllF, if_neg h]
          congr 1
          exact ih m cs hcs hcs'

lemma rAll_match {pat repl : List Char} (hp : pat ≠ []) (b : List Char) :
    rAll pat repl (pat ++ b) = repl ++ rAll pat repl b := by
  cases pat with
  | nil => exact absurd rfl hp
  | cons p ps =>
    have hpre : (p :: ps).isPrefixOf (p :: (ps ++ b)) :=
      List.isPrefixOf_iff_prefix.mpr ⟨b, by simp⟩
    show rAllF (p :: ps) repl (p :: (ps ++ b)).length (p :: (ps ++ b)) = _
    simp only [List.length_cons, rAllF, if_pos hpre]
    congr 1
    have hdrop : List.drop (ps.length + 1 - 1) (ps ++ b) = b := by
      simp only [Nat.add_sub_cancel]
      exact List.drop_left ps b
    rw [hdrop]
    exact rAllF_fuel _ _ _ _ _ (by simp) Nat.le.refl

lemma rAll_cons_neg {pat repl : List Char} {c : Char} {cs : List Char}
    (h : ¬ pat <+: c :: cs) : rAll pat repl (c :: cs) = c :: rAll pat repl cs := by
  have h' : ¬ pat.isPrefixOf (c :: cs) := fun hb =>
    h (List.isPrefixOf_iff_prefix.mp hb)
  show rAllF pat repl (c :: cs).length (c :: cs) = _
  simp only [List.length_cons, rAllF, if_neg h']
  rfl

/-- `strings.ReplaceAll` is the identity when the pattern does not occur. -/
lemma rAll_eq_self {pat repl : List Char} :
    ∀ {s : List Char}, ¬ pat <:+: s → rAll pat repl s = s := by
  intro s
  induction s with
  | nil => intro _; rfl
  | cons c cs ih =>
    intro h
    rw [rAll_cons_neg (fun hpf => h (pfx_inf hpf)), ih (fun hi => h (inf_cons c hi))]

lemma inf_nil {q : List Char} (h : q <:+: ([] : List Char)) : q = [] := by
  obtain ⟨u, v, huv⟩ := h
  rcases List.append_eq_nil.mp huv with ⟨h1, h2⟩
  exact (List.append_eq_nil.mp h1).2

/-- Structure of a prefix of a `rAll` output: it is a prefix of the input, or
it ends strictly inside a replacement, or it contains a whole replacement. -/
lemma rAll_pfx_cases {pat repl : List Char} (hp : pat ≠ []) :
    ∀ (n : Nat) (s p : List Char), s.length ≤ n → p <+: rAll pat repl s →
      p <+: s ∨ (∃ x y, p = x ++ y ∧ y ≠ [] ∧ y <+: repl) ∨ repl <:+: p := by
  intro n
  induction n with
  | zero =>
    intro s p hn hpf
    rw [List.eq_nil_of_length_eq_zero (Nat.le_zero.mp hn)] at hpf ⊢
    exact Or.inl hpf
  | succ n ih =>
    intro s p hn hpf
    cases s with
    | nil => exact Or.inl hpf
    | cons c cs =>
      by_cases hm : pat <+: c :: cs
      · obtain ⟨b, hb⟩ := hm
        rw [← hb, rAll_match hp] at hpf
        by_cases hl : p.length ≤ repl.length
        · have hpr : p <+: repl := pfx_of_pfx_le hpf ⟨rAll pat repl b, rfl⟩ hl
          rcases eq_or_ne p [] with rfl | hne
          · exact Or.inl List.nil_prefix
          · exact Or.inr (Or.inl ⟨[], p, by simp, hne, hpr⟩)
        · have hrp : repl <+: p :=
            pfx_of_pfx_le ⟨rAll pat repl b, rfl⟩ hpf (le_of_not_le hl)
          exact Or.inr (Or.inr (pfx_inf hrp))
      · rw [rAll_cons_neg hm] at hpf
        cases p with
        | nil => exact Or.inl List.nil_prefix
        | cons d p' =>
          obtain ⟨t, ht⟩ := hpf
          simp only [List.cons_append] at ht
          injection ht with h1 h2
          subst h1
          rcases ih cs p' (Nat.le_of_succ_le_succ hn) ⟨t, h2⟩ with
            hc | ⟨x, y, hxy, hy, hyr⟩ | hr
          · exact Or.inl (pfx_cons d hc)
          · exact Or.inr (Or.inl ⟨d :: x, y, by simp [hxy], hy, hyr⟩)
          · exact Or.inr (Or.inr (inf_cons d hr))

/-- Completeness of `strings.ReplaceAll`: if the replacement does not contain
the pattern, cannot recreate it at a boundary, and is at least as long as the
pattern, then the pattern never occurs in the output. -/
lemma rAll_no_pat {pat repl : List Char} (hp : pat ≠ [])
    (h1 : ¬ pat <:+: repl) (h2 : noBoundaryOverlap pat repl)
    (h3 : pat.length ≤ repl.length) :
    ∀ (n : Nat) (s : List Char), s.length ≤ n → ¬ pat <:+: rAll pat repl s := by
  intro n
  induction n with
  | zero =>
    intro s hn hinf
    rw [List.eq_nil_of_length_eq_zero (Nat.le_zero.mp hn)] at hinf
    exact hp (inf_nil hinf)
  | succ n ih =>
    intro s hn hinf
    cases s with
    | nil => exact hp (inf_nil hinf)
    | cons c cs =>
      by_cases hm : pat <+: c :: cs
      · obtain ⟨b, hb⟩ := hm
        rw [← hb, rAll_match hp] at hinf
        rcases inf_append_cases hinf with hA | hB | ⟨x, y, hxy, hx, hy, hxs, hyp⟩
        · exact h1 hA
        · have hplen : 0 < pat.length := List.length_pos.mpr hp
          have hlen : pat.length + b.length = cs.length + 1 := by
            have := congrArg List.length hb
            simpa using this
          have hn' : cs.length + 1 ≤ n + 1 := by simpa using hn
          have hblen : b.length ≤ n := by omega
          exact ih b hblen hB
        · have hxlen : x.length < pat.length := by
            have : 0 < y.length := List.length_pos.mpr hy
            rw [hxy]; simp; omega
          have hcond := (h2 x.length hxlen (List.length_pos.mpr hx)).1
          rw [hxy, List.take_left] at hcond
          exact hcond hxs
      · rw [rAll_cons_neg hm] at hinf
        rcases inf_cons_cases hinf with hpf | hi
        · cases pat with
          | nil => exact hp rfl
          | cons p0 pt =>
            obtain ⟨t, ht⟩ := hpf
            simp only [List.cons_append] at ht
            injection ht with hpc ht2
            subst hpc
            rcases rAll_pfx_cases (show p0 :: pt ≠ [] by simp) n cs pt
                (Nat.le_of_succ_le_succ hn) ⟨t, ht2⟩ with
              hc | ⟨x, y, hxy, hyne, hyr⟩ | hr
            · exact hm (pfx_cons p0 hc)
            · have hxlen : (p0 :: x).length < (p0 :: pt).length := by
                have : 0 < y.length := List.length_pos.mpr hyne
                simp [hxy]; omega
              have hcond := (h2 (p0 :: x).length hxlen (by simp)).2
              have hdrop : (p0 :: pt).drop (p0 :: x).length = y := by
                rw [hxy]
                simp only [List.length_cons, List.drop_succ_cons]
                exact List.drop_left x y
              rw [hdrop] at hcond
              exact hcond hyr
            · have hle1 : repl.length ≤ pt.length := hr.length_le
              have hle2 : (p0 :: pt).length ≤ repl.length := h3
              simp at hle2; omega
        · exact ih cs (Nat.le_of_succ_le_succ hn) hi

/-- `strings.ReplaceAll` cannot introduce a new occurrence of an unrelated
string `q` when `q` does not occur in the replacement, cannot be recreated at
a boundary, and is no longer than the replacement. -/
lemma rAll_no_intro {pat repl q : List Char} (hp : pat ≠ [])
    (h1 : ¬ q <:+: repl) (h2 : noBoundaryOverlap q repl)
    (h3 : q.length ≤ repl.length) :
    ∀ (n : Nat) (s : List Char), s.length ≤ n → ¬ q <:+: s →
      ¬ q <:+: rAll pat repl s := by
  intro n
  induction n with
  | zero =>
    intro s hn hs hinf
    rw [List.eq_nil_of_length_eq_zero (Nat.le_zero.mp hn)] at hinf
    exact hs (by rw [List.eq_nil_of_length_eq_zero (Nat.le_zero.mp hn)]
                 exact hinf)
  | succ n ih =>
    intro s hn hs hinf
    cases s with
    | nil => exact hs hinf
    | cons c cs =>
      by_cases hm : pat <+: c :: cs
      · obtain ⟨b, hb⟩ := hm
        rw [← hb, rAll_match hp] at hinf
        have hsb : ¬ q <:+: b := fun hqb => hs (by rw [← hb]; exact inf_append_right pat hqb)
        rcases inf_append_cases hinf with hA | hB | ⟨x, y, hxy, hx, hy, hxs, hyp⟩
        · exact h1 hA
        · have hplen : 0 < pat.length := List.length_pos.mpr hp
          have hlen : pat.length + b.length = cs.length + 1 := by
            have := congrArg List.length hb
            simpa using this
          have hn' : cs.length + 1 ≤ n + 1 := by simpa using hn
          exact ih b (by omega) hsb hB
        · have hxlen : x.length < q.length := by
            have : 0 < y.length := List.length_pos.mpr hy
            rw [hxy]; simp; omega
          have hcond := (h2 x.length hxlen (List.length_pos.mpr hx)).1
          rw [hxy, List.take_left] at hcond
          exact hcond hxs
      · rw [rAll_cons_neg hm] at hinf
        have hscs : ¬ q <:+: cs := fun hqc => hs (inf_cons c hqc)
        rcases inf_cons_cases hinf with hpf | hi
        · cases q with
          | nil => exact hs (pfx_inf List.nil_prefix)
          | cons q0 qt =>
            obtain ⟨t, ht⟩ := hpf
            simp only [List.cons_append] at ht
            injection ht with hqc ht2
            subst hqc
            rcases rAll_pfx_cases hp n cs qt (Nat.le_of_succ_le_succ hn) ⟨t, ht2⟩ with
              hc | ⟨x, y, hxy, hyne, hyr⟩ | hr
            · exact hs (pfx_inf (pfx_cons q0 hc))
            · have hxlen : (q0 :: x).length < (q0 :: qt).length := by
                have : 0 < y.length := List.length_pos.mpr hyne
                simp [hxy]; omega
              have hcond := (h2 (q0 :: x).length hxlen (by simp)).2
              have hdrop : (q0 :: qt).drop (q0 :: x).length = y := by
                rw [hxy]
                simp only [List.length_cons, List.drop_succ_cons]
                exact List.drop_left x y
              rw [hdrop] at hcond
              exact hcond hyr
            · have hle1 : repl.length ≤ qt.length := hr.length_le
              have hle2 : (q0 :: qt).length ≤ repl.length := h3
              simp at hle2; omega
        · exact ih cs (Nat.le_of_succ_le_succ hn) hscs hi

/-- When the pattern occurs, the replacement occurs in the output. -/
lemma rAll_repl_occurs {pat repl : List Char} (hp : pat ≠ []) :
    ∀ (n : Nat) (s : List Char), s.length ≤ n → pat <:+: s →
      repl <:+: rAll pat repl s := by
  intro n
  induction n with
  | zero =>
    intro s hn hinf
    rw [List.eq_nil_of_length_eq_zero (Nat.le_zero.mp hn)] at hinf
    exact absurd (inf_nil hinf) hp
  | succ n ih =>
    intro s hn hinf
    cases s with
    | nil => exact absurd (inf_nil hinf) hp
    | cons c cs =>
      by_cases hm : pat <+: c :: cs
      · obtain ⟨b, hb⟩ := hm
        rw [← hb, rAll_match hp]
        exact pfx_inf ⟨rAll pat repl b, rfl⟩
      · rw [rAll_cons_neg hm]
        rcases inf_cons_cases hinf with hpf | hi
        · exact absurd hpf hm
        · exact inf_cons c (ih cs (Nat.le_of_succ_le_succ hn) hi)

/-- Scanning `rAll` through a block whose characters never start the pattern
(the pattern head occurs nowhere in `a`) passes the block through unchanged
and then replaces the occurrence of the pattern that follows. -/
lemma rAll_headFree {p0 : Char} {pt repl a b : List Char}
    (ha : ∀ c ∈ a, c ≠ p0) :
    rAll (p0 :: pt) repl (a ++ (p0 :: pt) ++ b) =
      a ++ repl ++ rAll (p0 :: pt) repl b := by
  induction a with
  | nil => simpa using rAll_match (show p0 :: pt ≠ [] by simp) b
  | cons c a' ih =>
    have hc : c ≠ p0 := ha c (List.mem_cons_self c a')
    have hnm : ¬ (p0 :: pt) <+: c :: (a' ++ (p0 :: pt) ++ b) := by
      intro hpf
      obtain ⟨t, ht⟩ := hpf
      simp only [List.cons_append] at ht
      injection ht with h1 _
      exact hc h1.symm
    have ha' : ∀ c ∈ a', c ≠ p0 := fun d hd => ha d (List.mem_cons_of_mem c hd)
    simp only [List.cons_append]
    rw [rAll_cons_neg hnm]
    have := ih ha'
    simp only [List.cons_append] at this ⊢
    rw [this]

/-- Scanning `rAll` through a non-empty suffix of a protected block `t`:
no match can start inside it, so it is emitted unchanged. -/
lemma rAll_scan_through {pat repl t : List Char} (hnp : ¬ pat <:+: t)
    (h2 : noBoundaryOverlap pat t) :
    ∀ (v b : List Char), v ≠ [] → v <:+ t →
      rAll pat repl (v ++ b) = v ++ rAll pat repl b := by
  intro v
  induction v with
  | nil => intro b h; exact absurd rfl h
  | cons c v' ih =>
    intro b _ hsfx
    have hnm : ¬ pat <+: (c :: v') ++ b := by
      intro hpf
      by_cases hl : pat.length ≤ (c :: v').length
      · have hppfx : pat <+: c :: v' := pfx_of_pfx_le hpf ⟨b, rfl⟩ hl
        exact hnp ((pfx_inf hppfx).trans (sfx_inf hsfx))
      · have hvp : c :: v' <+: pat := pfx_of_pfx_le ⟨b, rfl⟩ hpf (le_of_not_le hl)
        obtain ⟨y, hy⟩ := hvp
        have hi : (c :: v').length < pat.length := by
          rcases eq_or_ne y [] with rfl | hyne
          · rw [List.append_nil] at hy
            exact absurd (hy ▸ Nat.le.refl) hl
          · have : 0 < y.length := List.length_pos.mpr hyne
            rw [← hy]; simp; omega
        have hcond := (h2 (c :: v').length hi (by simp)).1
        rw [← hy, List.take_left] at hcond
        exact hcond hsfx
    have hnm' : ¬ pat <+: c :: (v' ++ b) := by
      simpa using hnm
    rcases eq_or_ne v' [] with rfl | hv
    · have hnm2 : ¬ pat <+: c :: b := by simpa using hnm'
      simp only [List.cons_append, List.nil_append]
      rw [rAll_cons_neg hnm2]
    · have hsfx' : v' <:+ t := (List.IsSuffix.trans ⟨[c], rfl⟩ hsfx)
      simp only [List.cons_append]
      rw [rAll_cons_neg hnm', ih b hv hsfx']

/-- Preservation: an occurrence of a block `t` that the pattern cannot
overlap survives `strings.ReplaceAll` intact. -/
lemma rAll_keeps {pat repl t : List Char} (hp : pat ≠ []) (ht : t ≠ [])
    (hnp : ¬ pat <:+: t) (hti : ¬ t <:+: pat) (h2 : noBoundaryOverlap pat t) :
    ∀ (n : Nat) (s a b : List Char), s.length ≤ n → s = a ++ t ++ b →
      t <:+: rAll pat repl s := by
  intro n
  induction n with
  | zero =>
    intro s a b hn hs
    rw [List.eq_nil_of_length_eq_zero (Nat.le_zero.mp hn)] at hs
    rcases List.append_eq_nil.mp hs.symm with ⟨h1, _⟩
    exact absurd (List.append_eq_nil.mp h1).2 ht
  | succ n ih =>
    intro s a b hn hs
    cases a with
    | nil =>
      simp only [List.nil_append] at hs
      subst hs
      rw [rAll_scan_through hnp h2 t b ht ⟨[], rfl⟩]
      exact inf_append_left _ (pfx_inf ⟨[], by simp⟩)
    | cons c a' =>
      simp only [List.cons_append] at hs
      subst hs
      have hn' : (a' ++ t ++ b).length + 1 ≤ n + 1 := by simpa using hn
      by_cases hm : pat <+: c :: (a' ++ t ++ b)
      · by_cases hl : pat.length ≤ (c :: a').length
        · have hpa : pat <+: c :: a' :=
            pfx_of_pfx_le hm ⟨t ++ b, by simp⟩ hl
          obtain ⟨a'', ha⟩ := hpa
          have hseq : c :: (a' ++ t ++ b) = pat ++ (a'' ++ t ++ b) := by
            have h := congrArg (fun l => l ++ (t ++ b)) ha
            simp only [List.cons_append, List.append_assoc] at h ⊢
            exact h.symm
          rw [hseq, rAll_match hp]
          apply inf_append_right
          have hlen : pat.length + a''.length = a'.length + 1 := by
            have := congrArg List.length ha
            simpa using this
          have hplen : 0 < pat.length := List.length_pos.mpr hp
          have hlen2 : (a'' ++ t ++ b).length ≤ n := by
            simp only [List.length_append] at hn' ⊢
            omega
          exact ih (a'' ++ t ++ b) a'' b hlen2 rfl
        · have hap : c :: a' <+: pat :=
            pfx_of_pfx_le ⟨t ++ b, by simp⟩ hm (le_of_not_le hl)
          obtain ⟨p', hp'⟩ := hap
          have hp'ne : p' ≠ [] := by
            intro hnil
            rw [hnil, List.append_nil] at hp'
            exact hl (Nat.le_of_eq (congrArg List.length hp'.symm))
          obtain ⟨r, hr⟩ := hm
          have hptb : p' ++ r = t ++ b := by
            have : (c :: a') ++ (p' ++ r) = (c :: a') ++ (t ++ b) := by
              rw [← List.append_assoc, hp', hr]
              simp
            exact List.append_cancel_left this
          by_cases hl2 : p'.length ≤ t.length
          · have hpt : p' <+: t := pfx_of_pfx_le ⟨r, hptb⟩ ⟨b, rfl⟩ hl2
            have hi : (c :: a').length < pat.length := by
              have : 0 < p'.length := List.length_pos.mpr hp'ne
              rw [← hp']; simp; omega
            have hcond := (h2 (c :: a').length hi (by simp)).2
            rw [← hp', List.drop_left] at hcond
            exact absurd hpt hcond
          · have htp : t <+: p' := pfx_of_pfx_le ⟨b, rfl⟩ ⟨r, hptb⟩ (le_of_not_le hl2)
            exact absurd ((pfx_inf htp).trans (sfx_inf ⟨c :: a', hp'⟩)) hti
      · rw [rAll_cons_neg hm]
        exact inf_cons c (ih (a' ++ t ++ b) a' b (Nat.le_of_succ_le_succ hn') rfl)

/-! ### Helpers for `takeWhile`, `dropPfx` and `scanF` -/

lemma takeWhile_all {p : Char → Bool} :
    ∀ {d : List Char}, (∀ e ∈ d, p e = true) →
      d.takeWhile p = d ∧ d.dropWhile p = [] := by
  intro d
  induction d with
  | nil => intro _; exact ⟨rfl, rfl⟩
  | cons c t ih =>
    intro h
    have hc : p c = true := h c (List.mem_cons_self c t)
    have ht := ih (fun e he => h e (List.mem_cons_of_mem c he))
    simp [List.takeWhile_cons, List.dropWhile_cons, hc, ht.1, ht.2]

lemma takeWhile_app {p : Char → Bool} {d : List Char} {c : Char} {x : List Char}
    (hd : ∀ e ∈ d, p e = true) (hc : p c = false) :
    (d ++ c :: x).takeWhile p = d ∧ (d ++ c :: x).dropWhile p = c :: x := by
  induction d with
  | nil => simp [List.takeWhile_cons, List.dropWhile_cons, hc]
  | cons e t ih =>
    have he : p e = true := hd e (List.mem_cons_self e t)
    have ht := ih (fun e' he' => hd e' (List.mem_cons_of_mem e he'))
    simp [List.takeWhile_cons, List.dropWhile_cons, he, ht.1, ht.2]

lemma dropPfx_append (p x : List Char) : dropPfx p (p ++ x) = some x := by
  induction p with
  | nil => rfl
  | cons c t ih => simp [dropPfx, ih]

/-- Splitting a list at the first occurrence of a stop character is unique. -/
lemma split_at_stop {p : Char → Bool} {stop : Char} (hstop : p stop = false) :
    ∀ {d e x y : List Char}, (∀ c ∈ d, p c = true) → (∀ c ∈ e, p c = true) →
      d ++ stop :: x = e ++ stop :: y → d = e ∧ x = y := by
  intro d
  induction d with
  | nil =>
    intro e x y _ he h
    cases e with
    | nil => simpa using h
    | cons c t =>
      simp only [List.nil_append, List.cons_append] at h
      injection h with h1 _
      have := he c (List.mem_cons_self c t)
      rw [← h1, hstop] at this
      exact absurd this (by simp)
  | cons c t ih =>
    intro e x y hd he h
    cases e with
    | nil =>
      simp only [List.cons_append, List.nil_append] at h
      injection h with h1 _
      have := hd c (List.mem_cons_self c t)
      rw [h1, hstop] at this
      exact absurd this (by simp)
    | cons c' t' =>
      simp only [List.cons_append] at h
      injection h with h1 h2
      obtain ⟨rfl, rfl⟩ := ih (fun e' he' => hd e' (List.mem_cons_of_mem c he'))
        (fun e' he' => he e' (List.mem_cons_of_mem c' he')) h2
      exact ⟨by rw [h1], rfl⟩

lemma scanF_nil (m : List Char → Option (List Char × List Char)) (n : Nat) :
    scanF m n [] = [] := by
  cases n <;> rfl

lemma scanF_cons_match {m : List Char → Option (List Char × List Char)}
    {c : Char} {cs r rest : List Char} {n : Nat} (h : m (c :: cs) = some (r, rest)) :
    scanF m (n + 1) (c :: cs) = r ++ scanF m n rest := by
  simp [scanF, h]

lemma scanF_cons_none {m : List Char → Option (List Char × List Char)}
    {c : Char} {cs : List Char} {n : Nat} (h : m (c :: cs) = none) :
    scanF m (n + 1) (c :: cs) = c :: scanF m n cs := by
  simp [scanF, h]

/-- When the matcher matches the whole string at its head, the scan output is
exactly the replacement. -/
lemma scanF_head_match {m : List Char → Option (List Char × List Char)}
    {s r : List Char} (h : m s = some (r, [])) (hs : s ≠ []) :
    scanF m s.length s = r := by
  cases s with
  | nil => exact absurd rfl hs
  | cons c cs =>
    rw [show (c :: cs).length = cs.length + 1 from rfl, scanF_cons_match h, scanF_nil]
    simp


/-! ### Properties of the cross-document link pass -/

lemma tryMd_some {s r rest : List Char} (h : tryMd s = some (r, rest)) :
    ∃ d, d ≠ [] ∧ (∀ c ∈ d, c.isDigit = true) ∧
      s = '#' :: '{' :: (d ++ '}' :: rest) ∧ r = mdRepl d := by
  unfold tryMd at h
  split at h
  · next rest0 =>
    simp only [] at h
    split at h
    · exact absurd h (by simp)
    · next hne =>
      split at h
      · next tail hdw =>
        injection h with h1
        injection h1 with hr hrest
        refine ⟨rest0.takeWhile Char.isDigit, hne, ?_, ?_, hr.symm⟩
        · intro c hc
          exact List.mem_takeWhile_imp hc
        · rw [← hrest, ← hdw, List.takeWhile_append_dropWhile]
      · exact absurd h (by simp)
  · exact absurd h (by simp)

lemma tryMd_success {d b : List Char} (hne : d ≠ []) (hd : ∀ c ∈ d, c.isDigit = true) :
    tryMd ('#' :: '{' :: (d ++ '}' :: b)) = some (mdRepl d, b) := by
  have h := @takeWhile_app Char.isDigit d '}' b hd (by decide)
  simp only [tryMd, h.1, h.2]
  simp [hne]

lemma mdStep_keeps {d : List Char} (hne : d ≠ []) (hd : ∀ c ∈ d, c.isDigit = true) :
    ∀ (n : Nat) (s a b : List Char), s.length ≤ n →
      s = a ++ ('#' :: '{' :: (d ++ ['}'])) ++ b →
      mdRepl d <:+: scanF tryMd n s := by
  intro n
  induction n with
  | zero =>
    intro s a b hn hs
    rw [List.eq_nil_of_length_eq_zero (Nat.le_zero.mp hn)] at hs
    rcases List.append_eq_nil.mp hs.symm with ⟨h1, _⟩
    exact absurd (List.append_eq_nil.mp h1).2 (by simp)
  | succ n ih =>
    intro s a b hn hs
    cases s with
    | nil =>
      rcases List.append_eq_nil.mp hs.symm with ⟨h1, _⟩
      exact absurd (List.append_eq_nil.mp h1).2 (by simp)
    | cons c cs =>
      simp only [List.cons_append, List.append_assoc, List.nil_append] at hs
      cases hmv : tryMd (c :: cs) with
      | some pr =>
        obtain ⟨r, rest⟩ := pr
        obtain ⟨e, hene, hed, hshape, hrrepl⟩ := tryMd_some hmv
        rw [scanF_cons_match hmv]
        have hrlen : rest.length + e.length + 3 = cs.length + 1 := by
          have h' := congrArg List.length hshape
          simp at h'
          omega
        cases a with
        | nil =>
          simp only [List.nil_append] at hs
          rw [hs] at hshape
          injection hshape with _ h1
          injection h1 with _ h2
          have h3 : d ++ '}' :: b = e ++ '}' :: rest := by
            simpa using h2
          obtain ⟨rfl, rfl⟩ := split_at_stop (show Char.isDigit '}' = false by decide) hd hed h3
          rw [hrrepl]
          exact pfx_inf ⟨_, rfl⟩
        | cons a0 a' =>
          rw [hs] at hshape
          injection hshape with h0 h1
          cases a' with
          | nil =>
            injection h1 with h2 _
            exact absurd h2 (by decide)
          | cons a1 a'' =>
            injection h1 with h2 h3
            rcases List.append_eq_append_iff.mp h3 with ⟨w, hw1, hw2⟩ | ⟨w, hw1, hw2⟩
            · cases w with
              | nil =>
                simp only [List.nil_append] at hw2
                injection hw2 with hx _
                exact absurd hx (by decide)
              | cons w0 w' =>
                have hw0 : w0 ∈ e := by
                  rw [hw1]
                  exact List.mem_append.mpr (Or.inr (List.mem_cons_self w0 w'))
                have hdig := hed w0 hw0
                simp only [List.cons_append] at hw2
                injection hw2 with hx _
                rw [← hx] at hdig
                exact absurd hdig (by decide)
            · cases w with
              | nil =>
                simp only [List.nil_append] at hw2
                injection hw2 with hx _
                exact absurd hx (by decide)
              | cons w0 w' =>
                simp only [List.cons_append] at hw2
                injection hw2 with _ hrest
                have hrest' : rest = w' ++ ('#' :: '{' :: (d ++ ['}'])) ++ b := by
                  rw [hrest]; simp
                have hlen : rest.length ≤ n := by
                  have hn' : cs.length + 1 ≤ n + 1 := by simpa using hn
                  omega
                exact inf_append_right r (ih rest w' b hlen hrest')
      | none =>
        cases a with
        | nil =>
          simp only [List.nil_append] at hs
          have hsucc : tryMd (c :: cs) = some (mdRepl d, b) := by
            rw [hs]
            exact tryMd_success hne hd
          rw [hmv] at hsucc
          exact absurd hsucc (by simp)
        | cons a0 a' =>
          injection hs with h0 h1
          rw [scanF_cons_none hmv]
          apply inf_cons
          refine ih cs a' b (by simpa using hn) ?_
          rw [h1]; simp

/-! ### Properties of the image URL pass -/
lemma tryImg_full {id tail : List Char} (hid : id ≠ [])
    (hall : ∀ c ∈ id, imgIdChar c = true)
    (ht1 : ∀ c ∈ tail, notRParen c = true)
    (ht2 : ∀ c t', tail = c :: t' → imgIdChar c = false) :
    tryImg (imgPfx ++ id ++ tail) = some (id, []) := by
  unfold tryImg
  rw [List.append_assoc, dropPfx_append]
  cases tail with
  | nil =>
    have h := takeWhile_all hall
    simp only [List.append_nil, h.1, h.2]
    simp [hid]
  | cons c t' =>
    have hc : imgIdChar c = false := ht2 c t' rfl
    have h := @takeWhile_app imgIdChar id c t' hall hc
    have h2 := takeWhile_all ht1
    simp only [h.1, h.2, h2.2]
    simp [hid, h2.2]

lemma imgStep_full {id tail : List Char} (hid : id ≠ [])
    (hall : ∀ c ∈ id, imgIdChar c = true)
    (ht1 : ∀ c ∈ tail, notRParen c = true)
    (ht2 : ∀ c t', tail = c :: t' → imgIdChar c = false) :
    imgStep (imgPfx ++ id ++ tail) = id := by
  have htry := tryImg_full hid hall ht1 ht2
  have hne : imgPfx ++ id ++ tail ≠ [] := by
    intro h
    rcases List.append_eq_nil.mp h with ⟨h1, _⟩
    rcases List.append_eq_nil.mp h1 with ⟨h2, _⟩
    exact absurd h2 (by decide)
  exact scanF_head_match htry hne

/-! ### Checkbox completeness and survival through the literal passes -/

/-- No plain `[ ]` or `[x]` survives anywhere in `fixLinks` output. -/
lemma fixLinks_no_box (s : List Char) :
    ¬ ckBox <:+: fixLinks s ∧ ¬ ckChecked <:+: fixLinks s := by
  have h5 : ¬ ckBox <:+: rAll ckBox ckBoxRepl (urlPasses s) :=
    rAll_no_pat (by decide) (by decide) (by decide) (by decide) _ _ Nat.le.refl
  have h6 : ¬ ckBox <:+: rAll ckChecked ckCheckedRepl (rAll ckBox ckBoxRepl (urlPasses s)) :=
    rAll_no_intro (by decide) (by decide) (by decide) (by decide) _ _ Nat.le.refl h5
  have h7 : ¬ ckBox <:+: fixLinks s :=
    rAll_no_intro (by decide) (by decide) (by decide) (by decide) _ _ Nat.le.refl h6
  have h6x : ¬ ckChecked <:+: rAll ckChecked ckCheckedRepl (rAll ckBox ckBoxRepl (urlPasses s)) :=
    rAll_no_pat (by decide) (by decide) (by decide) (by decide) _ _ Nat.le.refl
  have h7x : ¬ ckChecked <:+: fixLinks s :=
    rAll_no_intro (by decide) (by decide) (by decide) (by decide) _ _ Nat.le.refl h6x
  exact ⟨h7, h7x⟩

/-- A `[ ]` that reaches the checkbox pass yields the disabled checkbox
markup in the final output. -/
lemma fixLinks_box_markup {s : List Char} (h : ckBox <:+: urlPasses s) :
    ckBoxRepl <:+: fixLinks s := by
  have h5 : ckBoxRepl <:+: rAll ckBox ckBoxRepl (urlPasses s) :=
    rAll_repl_occurs (by decide) _ _ Nat.le.refl h
  obtain ⟨u, v, huv⟩ := h5
  have h6 : ckBoxRepl <:+: rAll ckChecked ckCheckedRepl (rAll ckBox ckBoxRepl (urlPasses s)) :=
    rAll_keeps (by decide) (by decide) (by decide) (by decide) (by decide) _ _ u v Nat.le.refl huv.symm
  obtain ⟨u2, v2, huv2⟩ := h6
  exact rAll_keeps (by decide) (by decide) (by decide) (by decide) (by decide) _ _ u2 v2 Nat.le.refl huv2.symm

/-- A `[x]` that reaches the checkbox passes yields the checked checkbox
markup in the final output. -/
lemma fixLinks_checked_markup {s : List Char} (h : ckChecked <:+: urlPasses s) :
    ckCheckedRepl <:+: fixLinks s := by
  obtain ⟨u, v, huv⟩ := h
  have h5 : ckChecked <:+: rAll ckBox ckBoxRepl (urlPasses s) :=
    rAll_keeps (by decide) (by decide) (by decide) (by decide) (by decide) _ _ u v Nat.le.refl huv.symm
  have h6 : ckCheckedRepl <:+: rAll ckChecked ckCheckedRepl (rAll ckBox ckBoxRepl (urlPasses s)) :=
    rAll_repl_occurs (by decide) _ _ Nat.le.refl h5
  obtain ⟨u2, v2, huv2⟩ := h6
  exact rAll_keeps (by decide) (by decide) (by decide) (by decide) (by decide) _ _ u2 v2 Nat.le.refl huv2.symm

/-! ### Properties of `fixEmoji` -/

lemma emojiPat_not_inf {k s : List Char} (hs : ':' ∉ s) : ¬ emojiPat k <:+: s := by
  intro h
  obtain ⟨u, v, huv⟩ := h
  exact hs (by rw [← huv]; simp [emojiPat])

lemma fixEmoji_skip {L : List (List Char × List Char)} {s : List Char}
    (hL : ∀ p ∈ L, ¬ emojiPat p.1 <:+: s) : fixEmoji L s = s := by
  induction L with
  | nil => rfl
  | cons p L' ih =>
    simp only [fixEmoji, List.foldl_cons]
    rw [rAll_eq_self (hL p (List.mem_cons_self p L'))]
    exact ih (fun q hq => hL q (List.mem_cons_of_mem p hq))

lemma notColon_mem {l : List Char} (hl : ':' ∉ l) : ∀ c ∈ l, (c != ':') = true := by
  intro c hc
  simp only [bne_iff_ne, ne_eq]
  intro h
  rw [h] at hc
  exact hl hc

/-- In a string with exactly one shortcode occurrence between colon-free
context, the only dictionary pattern that occurs is that shortcode's. -/
lemma emoji_occurrence {a b k k' : List Char} (ha : ':' ∉ a) (hb : ':' ∉ b)
    (hk : ':' ∉ k) (hk' : ':' ∉ k')
    (h : emojiPat k' <:+: a ++ emojiPat k ++ b) : k' = k := by
  obtain ⟨u, v, huv⟩ := h
  have hcnt := congrArg (List.count ':') huv
  simp [emojiPat, List.count_append, List.count_cons,
    List.count_eq_zero.mpr ha, List.count_eq_zero.mpr hb,
    List.count_eq_zero.mpr hk, List.count_eq_zero.mpr hk'] at hcnt
  have hu : ':' ∉ u := List.count_eq_zero.mp (by omega)
  have hv : ':' ∉ v := List.count_eq_zero.mp (by omega)
  simp only [emojiPat, List.append_assoc, List.cons_append, List.singleton_append,
    List.nil_append] at huv
  have hsp1 := @split_at_stop (fun c => c != ':') ':' (by decide) u a _ _
    (notColon_mem hu) (notColon_mem ha) huv
  have hsp2 := @split_at_stop (fun c => c != ':') ':' (by decide) k' k _ _
    (notColon_mem hk') (notColon_mem hk) hsp1.2
  exact hsp2.1

/-- Replacing the one shortcode occurrence in colon-free context. -/
lemma rAll_emoji_hit {k v a b : List Char} (ha : ':' ∉ a) (hb : ':' ∉ b) :
    rAll (emojiPat k) v (a ++ emojiPat k ++ b) = a ++ v ++ b := by
  rw [show emojiPat k = ':' :: (k ++ [':']) from rfl]
  rw [@rAll_headFree ':' (k ++ [':']) v a b (fun c hc hcc => ha (hcc ▸ hc))]
  rw [show rAll (':' :: (k ++ [':'])) v b = b from rAll_eq_self (emojiPat_not_inf hb)]

/-- `fixEmoji` on a single shortcode occurrence in colon-free context: the
result is the same for every iteration order of the dictionary. -/
lemma fixEmoji_single {order : List (List Char × List Char)} {a b k v : List Char}
    (horder : order.Perm emojiDict) (hmem : (k, v) ∈ emojiDict)
    (ha : ':' ∉ a) (hb : ':' ∉ b) :
    fixEmoji order (a ++ emojiPat k ++ b) = a ++ v ++ b := by
  have hdictcf : ∀ p ∈ emojiDict, ':' ∉ p.1 ∧ ':' ∉ p.2 := by decide
  have hknodup : (emojiDict.map Prod.fst).Nodup := by decide
  have hordercf : ∀ p ∈ order, ':' ∉ p.1 ∧ ':' ∉ p.2 :=
    fun p hp => hdictcf p (horder.mem_iff.mp hp)
  have hmem2 : (k, v) ∈ order := horder.mem_iff.mpr hmem
  have hnodup : (order.map Prod.fst).Nodup :=
    ((horder.map Prod.fst).nodup_iff).mpr hknodup
  have hkcf : ':' ∉ k := (hdictcf _ hmem).1
  have hvcf : ':' ∉ v := (hdictcf _ hmem).2
  obtain ⟨L₁, L₂, rfl⟩ := List.append_of_mem hmem2
  have hmap : (L₁ ++ (k, v) :: L₂).map Prod.fst =
      L₁.map Prod.fst ++ k :: L₂.map Prod.fst := by simp
  rw [hmap] at hnodup
  rcases List.nodup_append.mp hnodup with ⟨_, h2, hdisj⟩
  have hkL₁ : k ∉ L₁.map Prod.fst := fun hkm => hdisj hkm (List.mem_cons_self _ _)
  have hL₁cf : ∀ p ∈ L₁, ':' ∉ p.1 :=
    fun p hp => (hordercf p (List.mem_append.mpr (Or.inl hp))).1
  simp only [fixEmoji, List.foldl_append, List.foldl_cons]
  have hfold1 : List.foldl (fun t kv => rAll (emojiPat kv.1) kv.2 t)
      (a ++ emojiPat k ++ b) L₁ = a ++ emojiPat k ++ b := by
    refine fixEmoji_skip ?_
    intro p hp hinf
    have hpk := emoji_occurrence ha hb hkcf (hL₁cf p hp) hinf
    exact hkL₁ (hpk ▸ List.mem_map_of_mem Prod.fst hp)
  rw [hfold1, rAll_emoji_hit ha hb]
  refine fixEmoji_skip ?_
  intro p hp
  refine emojiPat_not_inf ?_
  simp only [List.mem_append]
  rintro ((hc | hc) | hc)
  · exact ha hc
  · exact hvcf hc
  · exact hb hc

/-! ### Name Index lemmas -/

lemma lastUnderscore_none {n : List Char} (h : '_' ∉ n) : lastUnderscore n = none := by
  induction n with
  | nil => rfl
  | cons c cs ih =>
    have hc : c ≠ '_' := fun hcc => h (hcc ▸ List.mem_cons_self c cs)
    simp only [lastUnderscore, ih (fun hm => h (List.mem_cons_of_mem c hm))]
    simp [hc]

lemma nameKey_no_underscore {n : List Char} (h : '_' ∉ n) : nameKey n = n := by
  simp [nameKey, lastUnderscore_none h]

lemma lastUnderscore_append {id rest : List Char} (h : '_' ∉ rest) :
    lastUnderscore (id ++ '_' :: rest) = some id.length := by
  induction id with
  | nil => simp [lastUnderscore, lastUnderscore_none h]
  | cons c cs ih => simp [lastUnderscore, ih]

lemma nameKey_append {id rest : List Char} (h : '_' ∉ rest) :
    nameKey (id ++ '_' :: rest) = rest := by
  simp only [nameKey, lastUnderscore_append h]
  rw [show id ++ '_' :: rest = (id ++ ['_']) ++ rest by simp]
  rw [List.drop_left' (by simp)]

lemma nameKey_sfx (n : List Char) : nameKey n <:+ n := by
  unfold nameKey
  cases h : lastUnderscore n with
  | none => exact ⟨[], rfl⟩
  | some i => exact List.drop_suffix _ _

lemma buildIndex_mem :
    ∀ (entries : List DirEntry) (m : List Char → Option (List Char)) (k v : List Char),
      List.foldl indexInsert m entries k = some v →
      (k <:+ v ∧ ∃ e, e ∈ entries ∧ e.isDir = false ∧ e.name = v) ∨ m k = some v := by
  intro entries
  induction entries with
  | nil => intro m k v h; exact Or.inr h
  | cons e rest ih =>
    intro m k v h
    simp only [List.foldl_cons] at h
    rcases ih _ k v h with ⟨hsfx, e', he', hd, hn⟩ | hm
    · exact Or.inl ⟨hsfx, e', List.mem_cons_of_mem e he', hd, hn⟩
    · unfold indexInsert at hm
      by_cases hdir : e.isDir
      · rw [if_pos hdir] at hm
        exact Or.inr hm
      · rw [if_neg hdir] at hm
        simp only [Bool.not_eq_true] at hdir
        by_cases hk : k = nameKey e.name
        · rw [if_pos hk] at hm
          injection hm with hv
          refine Or.inl ⟨?_, e, List.mem_cons_self e rest, hdir, hv⟩
          rw [hk, ← hv]
          exact nameKey_sfx e.name
        · rw [if_neg hk] at hm
          exact Or.inr hm

/-- Soundness of the Name Index: every binding has a key that is a suffix of
its value, and its value is the name of a scanned non-directory entry. -/
lemma buildIndex_sound {entries : List DirEntry} {k v : List Char}
    (h : buildIndex entries k = some v) :
    k <:+ v ∧ ∃ e, e ∈ entries ∧ e.isDir = false ∧ e.name = v := by
  rcases buildIndex_mem entries _ k v h with h1 | h2
  · exact h1
  · exact absurd h2 (by simp)

lemma buildIndex_lookup :
    ∀ (post : List DirEntry) (m : List Char → Option (List Char)) (k : List Char),
      (∀ e' ∈ post, e'.isDir = false → nameKey e'.name ≠ k) →
      List.foldl indexInsert m post k = m k := by
  intro post
  induction post with
  | nil => intro m k _; rfl
  | cons e rest ih =>
    intro m k hpost
    simp only [List.foldl_cons]
    rw [ih _ k (fun e' he' => hpost e' (List.mem_cons_of_mem e he'))]
    unfold indexInsert
    by_cases hdir : e.isDir
    · rw [if_pos hdir]
    · rw [if_neg hdir]
      have hne := hpost e (List.mem_cons_self e rest) (by simpa using hdir)
      rw [if_neg (fun hk => hne hk.symm)]

/-- The binding written by a non-directory entry survives when no later
non-directory entry shares its key. -/
lemma buildIndex_at {pre : List DirEntry} {e : DirEntry} {post : List DirEntry}
    (hd : e.isDir = false)
    (hpost : ∀ e' ∈ post, e'.isDir = false → nameKey e'.name ≠ nameKey e.name) :
    buildIndex (pre ++ e :: post) (nameKey e.name) = some e.name := by
  unfold buildIndex
  rw [List.foldl_append]
  simp only [List.foldl_cons]
  rw [buildIndex_lookup post _ _ hpost]
  simp [indexInsert, hd]

/-! ### Contextual behaviour of the image URL pass -/

lemma dropPfx_some : ∀ {p s r : List Char}, dropPfx p s = some r → p ++ r = s := by
  intro p
  induction p with
  | nil =>
    intro s r h
    injection h with h1
    simpa using h1.symm
  | cons c ps ih =>
    intro s r h
    cases s with
    | nil => exact absurd h (by simp [dropPfx])
    | cons d ds =>
      unfold dropPfx at h
      by_cases hc : c = d
      · rw [if_pos hc] at h
        rw [hc]
        simpa using ih h
      · rw [if_neg hc] at h
        exact absurd h (by simp)

lemma tryImg_lt {s r rest : List Char} (h : tryImg s = some (r, rest)) :
    rest.length < s.length := by
  unfold tryImg at h
  cases hdp : dropPfx imgPfx s with
  | none => rw [hdp] at h; exact absurd h (by simp)
  | some rest0 =>
    rw [hdp] at h
    simp only [] at h
    by_cases hd : rest0.takeWhile imgIdChar = []
    · rw [if_pos hd] at h
      exact absurd h (by simp)
    · rw [if_neg hd] at h
      injection h with h1
      injection h1 with _ h2
      have hlen : rest.length ≤ rest0.length := by
        rw [← h2]
        calc ((rest0.dropWhile imgIdChar).dropWhile notRParen).length
            ≤ (rest0.dropWhile imgIdChar).length :=
              (List.dropWhile_sublist notRParen).length_le
          _ ≤ rest0.length := (List.dropWhile_sublist imgIdChar).length_le
      have hs := congrArg List.length (dropPfx_some hdp)
      simp [imgPfx] at hs
      omega

lemma scanF_fuel {m : List Char → Option (List Char × List Char)}
    (hm : ∀ s r rest, m s = some (r, rest) → rest.length < s.length) :
    ∀ (n k : Nat) (s : List Char), s.length ≤ n → s.length ≤ k →
      scanF m n s = scanF m k s := by
  intro n
  induction n with
  | zero =>
    intro k s hn _
    rw [List.eq_nil_of_length_eq_zero (Nat.le_zero.mp hn), scanF_nil, scanF_nil]
  | succ n ih =>
    intro k s hn hk
    cases s with
    | nil => rw [scanF_nil, scanF_nil]
    | cons c cs =>
      cases k with
      | zero => simp at hk
      | succ k =>
        have h1 : cs.length + 1 ≤ n + 1 := by simpa using hn
        have h2 : cs.length + 1 ≤ k + 1 := by simpa using hk
        cases hmc : m (c :: cs) with
        | some pr =>
          obtain ⟨r, rest⟩ := pr
          rw [scanF_cons_match hmc, scanF_cons_match hmc]
          congr 1
          have hlt : rest.length < cs.length + 1 := by simpa using hm _ _ _ hmc
          exact ih k rest (by omega) (by omega)
        | none =>
          rw [scanF_cons_none hmc, scanF_cons_none hmc]
          congr 1
          exact ih k cs (by omega) (by omega)

/-- A successful match at the head of the image scan: the output is the
capture followed by the scan of the remainder. -/
lemma imgScan_match {X r rest : List Char} (h : tryImg X = some (r, rest)) :
    scanF tryImg X.length X = r ++ scanF tryImg rest.length rest := by
  cases X with
  | nil =>
    have hnil : tryImg [] = none := by rfl
    rw [hnil] at h
    exact absurd h (by simp)
  | cons c cs =>
    rw [show (c :: cs).length = cs.length + 1 from rfl, scanF_cons_match h]
    congr 1
    have hlt : rest.length < cs.length + 1 := by simpa using tryImg_lt h
    exact scanF_fuel (fun s r' rest' h' => tryImg_lt h') cs.length rest.length rest
      (by omega) Nat.le.refl

/-- The image scan passes a block through untouched when no match can start
at any of its positions. -/
lemma imgScan_through : ∀ (a X : List Char),
    (∀ v, v ≠ [] → v <:+ a → tryImg (v ++ X) = none) →
    scanF tryImg (a ++ X).length (a ++ X) = a ++ scanF tryImg X.length X := by
  intro a
  induction a with
  | nil => intro X _; simp
  | cons c a' ih =>
    intro X hnone
    have h0 : tryImg (c :: (a' ++ X)) = none := by
      have := hnone (c :: a') (by simp) ⟨[], rfl⟩
      simpa using this
    show scanF tryImg ((a' ++ X).length + 1) (c :: (a' ++ X)) = _
    rw [scanF_cons_none h0]
    rw [ih X (fun v hv hsfx => hnone v hv (hsfx.trans ⟨[c], rfl⟩))]
    simp

/-- If the image URL prefix occurs in `a ++ imgPfx` only as its final
segment, no image match can start inside `a`. -/
lemma tryImg_none_in_ctx {a : List Char}
    (hctx : ¬ imgPfx <:+: a ++ imgPfx.take (imgPfx.length - 1)) :
    ∀ (v X : List Char), v ≠ [] → v <:+ a → tryImg (v ++ (imgPfx ++ X)) = none := by
  intro v X hv hsfx
  cases htry : tryImg (v ++ (imgPfx ++ X)) with
  | none => rfl
  | some pr =>
    exfalso
    have hpfx : imgPfx <+: v ++ (imgPfx ++ X) := by
      unfold tryImg at htry
      cases hdp : dropPfx imgPfx (v ++ (imgPfx ++ X)) with
      | none => rw [hdp] at htry; exact absurd htry (by simp)
      | some rest0 => exact ⟨rest0, dropPfx_some hdp⟩
    by_cases hl : imgPfx.length ≤ v.length
    · have h1 : imgPfx <+: v := pfx_of_pfx_le hpfx ⟨imgPfx ++ X, rfl⟩ hl
      exact hctx (inf_append_left _ ((pfx_inf h1).trans (sfx_inf hsfx)))
    · have h2 : v <+: imgPfx := pfx_of_pfx_le ⟨imgPfx ++ X, rfl⟩ hpfx (le_of_not_le hl)
      obtain ⟨w, hw⟩ := h2
      have hwpfx : w <+: imgPfx ++ X := by
        obtain ⟨t, ht⟩ := hpfx
        have ht2 : v ++ (w ++ t) = v ++ (imgPfx ++ X) := by
          rw [← List.append_assoc, hw]
          exact ht
        exact ⟨t, List.append_cancel_left ht2⟩
      have hvlen : 0 < v.length := List.length_pos.mpr hv
      have hwlen : w.length ≤ imgPfx.length - 1 := by
        have := congrArg List.length hw
        simp at this
        omega
      have hwtake : w <+: imgPfx.take (imgPfx.length - 1) := by
        refine pfx_of_pfx_le hwpfx
          ((List.take_prefix _ _).trans ⟨X, rfl⟩) ?_
        simp
        omega
      obtain ⟨a0, ha0⟩ := hsfx
      obtain ⟨rest1, hrest1⟩ := hwtake
      apply hctx
      refine ⟨a0, rest1, ?_⟩
      calc a0 ++ imgPfx ++ rest1 = a0 ++ (v ++ w) ++ rest1 := by rw [hw]
        _ = (a0 ++ v) ++ (w ++ rest1) := by simp [List.append_assoc]
        _ = a ++ imgPfx.take (imgPfx.length - 1) := by rw [ha0, hrest1]

/-- The matcher at an occurrence of the image URL: the capture is exactly
the id, and the consumed run extends through `q` up to the following `)` or
end of input. -/
lemma tryImg_hit {id q b : List Char} (hid : id ≠ [])
    (hall : ∀ c ∈ id, imgIdChar c = true)
    (hq1 : ∀ c ∈ q, notRParen c = true)
    (hq2 : q.takeWhile imgIdChar = [])
    (hb : b.takeWhile notRParen = []) :
    tryImg (imgPfx ++ (id ++ (q ++ b))) = some (id, b) := by
  have hbhead : ∀ cb b', b = cb :: b' → cb = ')' := by
    intro cb b' hbeq
    subst hbeq
    by_cases hx : notRParen cb
    · rw [List.takeWhile_cons, if_pos hx] at hb
      exact absurd hb (by simp)
    · simp only [notRParen, bne_iff_ne, ne_eq, Decidable.not_not] at hx
      exact hx
  have htw : (id ++ (q ++ b)).takeWhile imgIdChar = id ∧
      (id ++ (q ++ b)).dropWhile imgIdChar = q ++ b := by
    cases q with
    | nil =>
      cases b with
      | nil => simpa using takeWhile_all hall
      | cons cb b' =>
        have hcb : cb = ')' := hbhead cb b' rfl
        subst hcb
        have := @takeWhile_app imgIdChar id ')' b' hall (by decide)
        simpa using this
    | cons cq q' =>
      have hcq : imgIdChar cq = false := by
        by_cases hx : imgIdChar cq
        · rw [List.takeWhile_cons, if_pos hx] at hq2
          exact absurd hq2 (by simp)
        · simpa using hx
      have := @takeWhile_app imgIdChar id cq (q' ++ b) hall hcq
      simpa using this
  have hdw : (q ++ b).dropWhile notRParen = b := by
    cases b with
    | nil => simpa using (takeWhile_all hq1).2
    | cons cb b' =>
      have hcb : cb = ')' := hbhead cb b' rfl
      subst hcb
      exact (@takeWhile_app notRParen q ')' b' hq1 (by decide)).2
  unfold tryImg
  rw [dropPfx_append]
  simp only [htw.1, htw.2, hdw]
  simp [hid]

/-! ### Claims -/

/-- Claim C1, counterexample: with two non-directory files `1_a` and `2_a`
sharing the suffix `a` after the last underscore, the later entry silently
overwrites the earlier one, so the Name Index does not map key `a` to the
full filename `1_a` even though `1_a` is an entry of the form `<id>_<rest>`
with `rest = a`. -/
theorem c1_counterexample :
    buildIndex [⟨"1_a".toList, false⟩, ⟨"2_a".toList, false⟩] "a".toList =
      some "2_a".toList ∧
    nameKey "1_a".toList = "a".toList ∧
    ¬ buildIndex [⟨"1_a".toList, false⟩, ⟨"2_a".toList, false⟩] "a".toList =
      some "1_a".toList := by
  decide

/-- Claim C1 (amended): for every non-directory entry whose filename has the
form `<id>_<rest>` with `rest` free of underscores, the Name Index maps key
`rest` to the full filename, provided no later non-directory entry shares
that key (later entries overwrite earlier ones); a filename with no
underscore maps to itself as both key and value, under the same proviso. -/
theorem c1_name_index (pre : List DirEntry) (e : DirEntry) (post : List DirEntry)
    (hd : e.isDir = false)
    (hlast : ∀ e' ∈ post, e'.isDir = false → nameKey e'.name ≠ nameKey e.name) :
    (∀ id rest, e.name = id ++ '_' :: rest → '_' ∉ rest →
      buildIndex (pre ++ e :: post) rest = some e.name) ∧
    ('_' ∉ e.name → buildIndex (pre ++ e :: post) e.name = some e.name) := by
  constructor
  · intro id rest hname hrest
    have hkey : nameKey e.name = rest := by rw [hname]; exact nameKey_append hrest
    rw [← hkey]
    exact buildIndex_at hd hlast
  · intro hn
    have hkey : nameKey e.name = e.name := nameKey_no_underscore hn
    have h := @buildIndex_at pre e post hd hlast
    rw [hkey] at h
    exact h

/-- Witness for the amended C1 on concrete directory listings. -/
theorem c1_name_index_witness :
    buildIndex [⟨"12_photo.png".toList, false⟩] "photo.png".toList =
      some "12_photo.png".toList ∧
    buildIndex [⟨"plain".toList, false⟩] "plain".toList = some "plain".toList := by
  constructor
  · exact (c1_name_index [] ⟨"12_photo.png".toList, false⟩ [] rfl (by simp)).1
      "12".toList "photo.png".toList (by decide) (by decide)
  · exact (c1_name_index [] ⟨"plain".toList, false⟩ [] rfl (by simp)).2 (by decide)

/-- Claim C2, counterexample: `fixLinks` is not idempotent — the
guidance-path rule's replacement itself contains `/guidance/`, so a second
application rewrites the already-rewritten text again. -/
theorem c2_counterexample :
    fixLinks (fixLinks "/guidance/".toList) ≠ fixLinks "/guidance/".toList := by
  decide

/-- Claim C2 (amended): re-applying either checkbox substitution to the
output of `fixLinks` changes nothing, because no plain `[ ]` or `[x]`
survives in the output; `fixLinks` as a whole is, however, not idempotent,
because the guidance-path rule matches its own replacement text (and the
URL rules can match text exposed by a previous replacement). -/
theorem c2_checkbox_stable (s : List Char) :
    rAll ckBox ckBoxRepl (fixLinks s) = fixLinks s ∧
    rAll ckChecked ckCheckedRepl (fixLinks s) = fixLinks s := by
  obtain ⟨h1, h2⟩ := fixLinks_no_box s
  exact ⟨rAll_eq_self h1, rAll_eq_self h2⟩

/-- Claim C3, counterexample: with the shared credential configured, an
unauthenticated GET for the stylesheet `/doc.css` is answered 200 with the
stylesheet and no challenge — the mux dispatches `/doc.css` to its own
handler before `catchAll`'s credential check. -/
theorem c3_counterexample :
    serve cfgAuth reqCss = ⟨200, false, Body.css⟩ ∧
    (serve cfgAuth reqCss).status ≠ 401 ∧
    (serve cfgAuth reqCss).challenge = false := by
  decide

/-- Claim C3 (amended): with a shared credential configured, every GET
request except those for `/favicon.ico` and `/doc.css` that carries a
missing or mismatched credential receives 401 with a WWW-Authenticate
challenge; the favicon and stylesheet handlers bypass the check (and
non-GET methods receive 405 before the check). -/
theorem c3_auth_required (cfg : Config) (req : Request)
    (huser : cfg.basicUser ≠ [])
    (hmethod : req.method = "GET".toList)
    (hfav : req.path ≠ "/favicon.ico".toList)
    (hcss : req.path ≠ "/doc.css".toList)
    (hauth : authOk cfg req.auth = false) :
    serve cfg req = ⟨401, true, Body.errorText "Unauthorized".toList⟩ := by
  unfold serve
  rw [if_neg hfav, if_neg hcss]
  unfold catchAll
  rw [if_neg (by rw [hmethod]; simp)]
  rw [if_pos ⟨huser, hauth⟩]

/-- Witness for the amended C3: an unauthenticated request for a document is
challenged. -/
theorem c3_auth_required_witness :
    serve cfgAuth ⟨"GET".toList, "/1.md".toList, none⟩ =
      ⟨401, true, Body.errorText "Unauthorized".toList⟩ :=
  c3_auth_required cfgAuth ⟨"GET".toList, "/1.md".toList, none⟩
    (by decide) rfl (by decide) (by decide) rfl

/-- Claim C4 (code bug in `headAndContent`): for a markdown file that passes
the `os.Stat` check and opens, but whose scan fails mid-read (for example a
line longer than `bufio.MaxScanTokenSize`) while `Close` succeeds, the
deferred `err = f.Close()` overwrites `scanner.Err()`; the scan error is
lost and the handler renders a 200 page from the partial content instead of
the internal error the spec requires. -/
theorem c4_scan_error_masked :
    headAndContent mdOutcomeScanErr =
      Except.ok ("T".toList, "partial line\n".toList) ∧
    serve cfgScanErr reqScanErr =
      ⟨200, false, Body.docPage "T".toList "partial line\n".toList⟩ ∧
    (serve cfgScanErr reqScanErr).status ≠ 500 :=
  ⟨rfl, by decide, by decide⟩

/-- Claim C5, counterexample: in the input
`https://image.docbase.io/uploads/a#{42}` the cross-document rule fires
first and produces the hyperlink, but the image-URL rule's trailing `[^)]*`
then swallows it, so the final output is just `a` and contains no `42.md`
hyperlink at all. -/
theorem c5_counterexample :
    fixLinks "https://image.docbase.io/uploads/a#{42}".toList = "a".toList ∧
    ¬ "42.md".toList <:+:
        fixLinks "https://image.docbase.io/uploads/a#{42}".toList := by
  decide

/-- Claim C5 (amended): the cross-document pass itself replaces every
occurrence of the literal `#{<digits>}` with the link-icon marker followed
by the hyperlink `🔗 <a href="<digits>.md"><digits>.md</a>`, whose href and
text are exactly `<digits>.md`; a later image- or attachment-URL rewrite may
still consume the generated link, as the counterexample shows. -/
theorem c5_md_link (s a b d : List Char) (hne : d ≠ [])
    (hd : ∀ c ∈ d, c.isDigit = true)
    (hs : s = a ++ ('#' :: '{' :: (d ++ ['}'])) ++ b) :
    mdRepl d <:+: mdStep s :=
  mdStep_keeps hne hd s.length s a b Nat.le.refl hs

/-- Witness for the amended C5: an input containing `#{42}` yields, after
the cross-document pass, the hyperlink whose href is exactly `42.md`. -/
theorem c5_md_link_witness :
    mdRepl "42".toList <:+: mdStep "see #{42} then".toList :=
  c5_md_link "see #{42} then".toList "see ".toList " then".toList "42".toList
    (by decide) (by decide) (by decide)

/-- Claim C6, counterexample: the trailing `[^)]*` of the image URL pattern
consumes any run of non-`)` characters, not only query parameters — here the
following text ` hello` is discarded as well, so surrounding text is
consumed. -/
theorem c6_counterexample :
    fixLinks "https://image.docbase.io/uploads/a.png hello".toList =
      "a.png".toList ∧
    "a.png".toList ≠ "a.png hello".toList := by
  decide

/-- Claim C6 (amended): every occurrence of the absolute image URL — in
arbitrary surrounding context, provided no image-URL match can start
earlier in the preceding context (an earlier match's `[^)]*` tail would
swallow the occurrence, as in the C5/C7 counterexamples) — is replaced by
exactly its bare `<id-with-extension>`: the URL prefix and the entire
following run of non-`)` characters (query parameters or any other text, up
to the first `)` or the end of input) are discarded, the surrounding
context is preserved, and scanning continues after the discarded run. -/
theorem c6_img_rewrite (a id q b : List Char)
    (hctx : ¬ imgPfx <:+: a ++ imgPfx.take (imgPfx.length - 1))
    (hid : id ≠ []) (hall : ∀ c ∈ id, imgIdChar c = true)
    (hq1 : ∀ c ∈ q, notRParen c = true)
    (hq2 : q.takeWhile imgIdChar = [])
    (hb : b.takeWhile notRParen = []) :
    imgStep (a ++ imgPfx ++ id ++ q ++ b) = a ++ id ++ imgStep b := by
  have htry : tryImg (imgPfx ++ (id ++ (q ++ b))) = some (id, b) :=
    tryImg_hit hid hall hq1 hq2 hb
  have heq : a ++ imgPfx ++ id ++ q ++ b = a ++ (imgPfx ++ (id ++ (q ++ b))) := by
    simp [List.append_assoc]
  rw [heq]
  show scanF tryImg (a ++ (imgPfx ++ (id ++ (q ++ b)))).length
      (a ++ (imgPfx ++ (id ++ (q ++ b)))) = a ++ id ++ imgStep b
  rw [imgScan_through a (imgPfx ++ (id ++ (q ++ b)))
    (fun v hv hs => tryImg_none_in_ctx hctx v (id ++ (q ++ b)) hv hs)]
  rw [imgScan_match htry]
  simp [imgStep, List.append_assoc]

/-- Witness for the amended C6 on the canonical markdown image case: the
query parameters are discarded, the alt-text context before the URL and the
closing parenthesis after the discarded run survive. -/
theorem c6_img_rewrite_witness :
    imgStep ("![alt](".toList ++ imgPfx ++ "x.png".toList ++ "?w=1".toList ++ ")".toList) =
      "![alt](".toList ++ "x.png".toList ++ imgStep ")".toList :=
  c6_img_rewrite "![alt](".toList "x.png".toList "?w=1".toList ")".toList
    (by decide) (by decide) (by decide) (by decide) (by decide) (by decide)

/-- Claim C7, counterexample: the image-URL pass consumes the literal `[ ]`
inside its `[^)]*` tail before the checkbox substitution runs, so the
rewritten output contains no checkbox markup although the input contained
`[ ]`. -/
theorem c7_counterexample :
    ckBox <:+: "https://image.docbase.io/uploads/a.png?x=[ ]".toList ∧
    fixLinks "https://image.docbase.io/uploads/a.png?x=[ ]".toList =
      "a.png".toList ∧
    ¬ ckBoxRepl <:+:
        fixLinks "https://image.docbase.io/uploads/a.png?x=[ ]".toList := by
  decide

/-- Claim C7 (amended): for every input, no plain occurrence of `[ ]` or
`[x]` survives in `fixLinks` output; and every `[ ]` (resp. `[x]`) still
present when the checkbox substitutions run — that is, after the URL-rewrite
passes — is rewritten to the corresponding disabled (resp. disabled and
checked) checkbox markup. An occurrence consumed by an earlier URL rewrite
produces no markup. -/
theorem c7_checkbox (s : List Char) :
    (¬ ckBox <:+: fixLinks s ∧ ¬ ckChecked <:+: fixLinks s) ∧
    (ckBox <:+: urlPasses s → ckBoxRepl <:+: fixLinks s) ∧
    (ckChecked <:+: urlPasses s → ckCheckedRepl <:+: fixLinks s) :=
  ⟨fixLinks_no_box s, fun h => fixLinks_box_markup h, fun h => fixLinks_checked_markup h⟩

/-- Witness for the amended C7 on concrete checklist lines. -/
theorem c7_checkbox_witness :
    ckBoxRepl <:+: fixLinks "- [ ] todo".toList ∧
    ckCheckedRepl <:+: fixLinks "- [x] done".toList :=
  ⟨(c7_checkbox "- [ ] todo".toList).2.1 (by decide),
   (c7_checkbox "- [x] done".toList).2.2 (by decide)⟩

/-- Claim C8, counterexample: in `:+1:bulb:` the two shortcode occurrences
share the middle colon; replacing `:+1:` destroys the `:bulb:` occurrence,
which is then neither replaced by its glyph nor left in the output
verbatim. -/
theorem c8_counterexample :
    emojiPat "bulb".toList <:+: ":+1:bulb:".toList ∧
    fixEmoji emojiDict ":+1:bulb:".toList = "👍bulb:".toList ∧
    ¬ "💡".toList <:+: fixEmoji emojiDict ":+1:bulb:".toList ∧
    ¬ emojiPat "bulb".toList <:+: fixEmoji emojiDict ":+1:bulb:".toList := by
  decide

/-- Claim C8 (amended): a dictionary shortcode occurrence surrounded by
colon-free context is replaced by its glyph under every iteration order of
the dictionary, and a non-dictionary shortcode in colon-free context is
left verbatim; overlapping occurrences (sharing a delimiter colon) can
destroy each other, as the counterexample shows. -/
theorem c8_emoji (order : List (List Char × List Char)) (a b k v f : List Char)
    (horder : order.Perm emojiDict) (hmem : (k, v) ∈ emojiDict)
    (ha : ':' ∉ a) (hb : ':' ∉ b) (hf : ':' ∉ f)
    (hfk : f ∉ emojiDict.map Prod.fst) :
    fixEmoji order (a ++ emojiPat k ++ b) = a ++ v ++ b ∧
    fixEmoji order (a ++ emojiPat f ++ b) = a ++ emojiPat f ++ b := by
  constructor
  · exact fixEmoji_single horder hmem ha hb
  · refine fixEmoji_skip ?_
    intro p hp hinf
    have hpcf : ':' ∉ p.1 :=
      ((by decide : ∀ q ∈ emojiDict, ':' ∉ q.1 ∧ ':' ∉ q.2) p (horder.mem_iff.mp hp)).1
    have hpk := emoji_occurrence ha hb hf hpcf hinf
    exact hfk (hpk ▸ List.mem_map_of_mem Prod.fst (horder.mem_iff.mp hp))

/-- Witness for the amended C8: `:+1:` is replaced, `:foo:` is untouched. -/
theorem c8_emoji_witness :
    fixEmoji emojiDict ("I ".toList ++ emojiPat "+1".toList ++ " it".toList) =
      "I ".toList ++ "👍".toList ++ " it".toList ∧
    fixEmoji emojiDict ("I ".toList ++ emojiPat "foo".toList ++ " it".toList) =
      "I ".toList ++ emojiPat "foo".toList ++ " it".toList :=
  c8_emoji emojiDict "I ".toList " it".toList "+1".toList "👍".toList "foo".toList
    (List.Perm.refl _) (by decide) (by decide) (by decide) (by decide) (by decide)

/-- Claim C9, counterexample: two iteration orders of the same dictionary —
the source order and its reverse — give different results on `:+1:bulb:`,
whose shortcode occurrences overlap in one colon, so `fixEmoji` is not
deterministic across Go map iteration orders. -/
theorem c9_counterexample :
    emojiDict.reverse.Perm emojiDict ∧
    fixEmoji emojiDict.reverse ":+1:bulb:".toList ≠
      fixEmoji emojiDict ":+1:bulb:".toList :=
  ⟨List.reverse_perm emojiDict, by decide⟩

/-- Claim C9 (amended): `fixEmoji` is independent of the dictionary
iteration order only when matches cannot overlap: on a single shortcode
occurrence between colon-free context any two iteration orders agree; when
occurrences of two shortcodes overlap in a colon, the result depends on the
order, as the counterexample shows. -/
theorem c9_emoji_order (o1 o2 : List (List Char × List Char)) (a b k v : List Char)
    (h1 : o1.Perm emojiDict) (h2 : o2.Perm emojiDict) (hmem : (k, v) ∈ emojiDict)
    (ha : ':' ∉ a) (hb : ':' ∉ b) :
    fixEmoji o1 (a ++ emojiPat k ++ b) = fixEmoji o2 (a ++ emojiPat k ++ b) := by
  rw [fixEmoji_single h1 hmem ha hb, fixEmoji_single h2 hmem ha hb]

/-- Witness for the amended C9: source order and reverse order agree on an
isolated `:bulb:`. -/
theorem c9_emoji_order_witness :
    fixEmoji emojiDict.reverse ("ok ".toList ++ emojiPat "bulb".toList ++ "!".toList) =
      fixEmoji emojiDict ("ok ".toList ++ emojiPat "bulb".toList ++ "!".toList) :=
  c9_emoji_order emojiDict.reverse emojiDict "ok ".toList "!".toList
    "bulb".toList "💡".toList (List.reverse_perm _) (List.Perm.refl _)
    (by decide) (by decide) (by decide)

/-- Claim C10: every binding of a Name Index built by the startup scan has a
key that is a suffix of its value, and a value that is exactly the on-disk
filename of some non-directory entry of the scanned listing; the embedding
passes the built index immutably to the handlers, so the invariant holds
for the life of the process. -/
theorem c10_index_invariant (entries : List DirEntry) (k v : List Char)
    (h : buildIndex entries k = some v) :
    k <:+ v ∧ ∃ e, e ∈ entries ∧ e.isDir = false ∧ e.name = v :=
  buildIndex_sound h

/-- Witness for C10 on a concrete listing. -/
theorem c10_index_invariant_witness :
    "x.png".toList <:+ "7_x.png".toList ∧
    ∃ e, e ∈ [(⟨"7_x.png".toList, false⟩ : DirEntry)] ∧ e.isDir = false ∧
      e.name = "7_x.png".toList :=
  c10_index_invariant [⟨"7_x.png".toList, false⟩] "x.png".toList "7_x.png".toList
    (by decide)
